import Mathlib

/-!
A verification development for the anomaly-detection core of the
`agua-inteligente` repository (`src/analytics/processing.py`).

The embedding models a pandas DataFrame of sensor readings as a list of typed
rows plus a list of column names.  Each cell is represented by the result of
the coercion that `_coerce_and_sort` applies to it: `none` stands for a value
that `pd.to_numeric(..., errors="coerce")` turns into NaN, or a timestamp that
`pd.to_datetime(..., utc=True, errors="coerce")` turns into NaT.  Numbers are
exact rationals; the one irrational quantity of the source, the rolling
standard deviation, is carried as its square (the population variance), and
every comparison the source performs on it (`std > 0`, `|z| > threshold`) is
embedded through the algebraically equivalent comparison on squares, justified
over the real numbers by `absGt_sq_bridge` below.
-/

namespace Agua

open scoped List

/-- One sensor observation, after the column coercions of `_coerce_and_sort`:
the meter code is coerced to a string (always succeeds), the flow value to a
number (`none` models NaN), the timestamp to a UTC instant (`none` models NaT). -/
structure Reading where
  meter_code : String
  flow_lpm : Option ℚ
  ts : Option Int
deriving DecidableEq

def defaultReading : Reading := ⟨"", none, none⟩

/-- Ordering on coerced timestamps used by `sort_values`: instants ascending,
missing timestamps (NaT) last, ties everywhere else. -/
def tsKeyLe : Option Int → Option Int → Bool
  | none, none => true
  | none, some _ => false
  | some _, none => true
  | some a, some b => decide (a ≤ b)

/-- Lexicographic code-point comparison of character lists: the ordering Python
(and hence a pandas object/string sort key) applies to strings. -/
def lexLt : List Char → List Char → Bool
  | [], [] => false
  | [], _ :: _ => true
  | _ :: _, [] => false
  | a :: as, b :: bs => if a < b then true else if b < a then false else lexLt as bs

/-- Strict code-point order on meter codes. -/
def strLt (a b : String) : Bool := lexLt a.data b.data

/-- Sort key of `out.sort_values(["meter_code", "ts"], kind="mergesort")`:
lexicographic on the pair (meter_code, ts). -/
def rowLe (r s : Reading) : Bool :=
  strLt r.meter_code s.meter_code ||
    (decide (r.meter_code = s.meter_code) && tsKeyLe r.ts s.ts)

/-- Timestamp-only comparison: the restriction of `rowLe` to one meter partition. -/
def tsRowLe (r s : Reading) : Bool := tsKeyLe r.ts s.ts

/-- Collects a list of optional values into an optional list, defined exactly
when no entry is missing.  This mirrors how a NaN inside a pandas rolling
window (with `min_periods = window`) makes the whole statistic NaN. -/
def allSome : List (Option ℚ) → Option (List ℚ)
  | [] => some []
  | none :: _ => none
  | some a :: l => (allSome l).map (a :: ·)

/-- The trailing window of `w` prior-and-current observations at position `i` of
a sensor's value series, as produced by `rolling(window=w, min_periods=w)`:
defined exactly when position `i` exists, has `w` prior-and-current entries,
and none of them is missing. -/
def rwindow (vals : List (Option ℚ)) (w i : Nat) : Option (List ℚ) :=
  if 1 ≤ w ∧ w ≤ i + 1 ∧ i < vals.length then
    allSome ((vals.drop (i + 1 - w)).take w)
  else none

def listMean (xs : List ℚ) : ℚ := xs.sum / xs.length

/-- Population variance (`ddof=0`): the square of the `rolling_std` column. -/
def popVar (xs : List ℚ) : ℚ := ((xs.map fun x => (x - listMean xs) ^ 2).sum) / xs.length

/-- Linear-interpolation quantile, the pandas/numpy default used by
`rolling(...).quantile`: with the window sorted ascending, the rank
`h = p * (n - 1)` splits into integer part `j` and fraction `g`, giving
`x_j + g * (x_(j+1) - x_j)`. -/
def quantileLinear (p : ℚ) (xs : List ℚ) : ℚ :=
  let s := xs.mergeSort fun a b => decide (a ≤ b)
  if s.length = 0 then 0
  else
    let h : ℚ := p * ((s.length : ℚ) - 1)
    let j : Nat := (Int.floor h).toNat
    let g : ℚ := h - (j : ℚ)
    s.getD j 0 + g * (s.getD (min (j + 1) (s.length - 1)) 0 - s.getD j 0)

/-- Exact-arithmetic rendition of the float test `|z| > t` for
`z = num / Real.sqrt var` with `var > 0`: when `t < 0` the test always holds,
otherwise it is the comparison of squares `num^2 > t^2 * var`.
Lemma `absGt_sq_bridge` proves this equivalent to the real-number comparison. -/
def zAbsGt (num var t : ℚ) : Bool :=
  if t < 0 then true else decide (t ^ 2 * var < num ^ 2)

/-- One enriched output row.  The field `rolling_var` is the square of the
source's `rolling_std` column (kept exact because the standard deviation is
irrational in general); `zscore_num` is `flow_lpm - rolling_mean`, set on
exactly the rows where the source sets the `zscore` column, whose value there
is `zscore_num / Real.sqrt rolling_var`. -/
structure ResultRow where
  meter_code : String
  flow_lpm : Option ℚ
  ts : Option Int
  detector : String
  rolling_mean : Option ℚ
  rolling_var : Option ℚ
  zscore_num : Option ℚ
  rolling_low : Option ℚ
  rolling_high : Option ℚ
  is_anomaly : Bool
deriving DecidableEq

def groupVals (g : List Reading) : List (Option ℚ) := g.map (·.flow_lpm)

/-- Flow value at position `i` of a group, defaulting to `0`; the default is
only ever reached on rows where the source arithmetic operates on NaN. -/
def flowAt (g : List Reading) (i : Nat) : ℚ := ((g.getD i defaultReading).flow_lpm).getD 0

def zMean (g : List Reading) (w i : Nat) : Option ℚ := (rwindow (groupVals g) w i).map listMean

def zVar (g : List Reading) (w i : Nat) : Option ℚ := (rwindow (groupVals g) w i).map popVar

/-- The mask `std_pos = (rolling_std > 0) & ~rolling_std.isna()`: since
`rolling_std = Real.sqrt rolling_var`, positivity of the standard deviation is
positivity of the variance. -/
def zStdPos (g : List Reading) (w i : Nat) : Bool :=
  match zVar g w i with
  | some v => decide (0 < v)
  | none => false

/-- Numerator of the `zscore` column, set exactly where `std_pos` holds. -/
def zNum (g : List Reading) (w i : Nat) : Option ℚ :=
  if zStdPos g w i then some (flowAt g i - (zMean g w i).getD 0) else none

/-- The anomaly flag of the zscore branch: `z_valid & (zscore.abs() > z_threshold)`. -/
def zAnom (g : List Reading) (w i : Nat) (t : ℚ) : Bool :=
  zStdPos g w i && zAbsGt (flowAt g i - (zMean g w i).getD 0) ((zVar g w i).getD 0) t

def zRowAt (g : List Reading) (w : Nat) (t : ℚ) (tag : String) (i : Nat) : ResultRow :=
  { meter_code := (g.getD i defaultReading).meter_code
    flow_lpm := (g.getD i defaultReading).flow_lpm
    ts := (g.getD i defaultReading).ts
    detector := tag
    rolling_mean := zMean g w i
    rolling_var := zVar g w i
    zscore_num := zNum g w i
    rolling_low := none
    rolling_high := none
    is_anomaly := zAnom g w i t }

def q1At (g : List Reading) (w i : Nat) : Option ℚ :=
  (rwindow (groupVals g) w i).map (quantileLinear (1 / 4))

def q3At (g : List Reading) (w i : Nat) : Option ℚ :=
  (rwindow (groupVals g) w i).map (quantileLinear (3 / 4))

/-- Lower IQR fence `low = q1 - iqr_k * (q3 - q1)` of `_iqr_rolling`. -/
def lowAt (g : List Reading) (w i : Nat) (k : ℚ) : Option ℚ :=
  match q1At g w i, q3At g w i with
  | some a, some b => some (a - k * (b - a))
  | _, _ => none

/-- Upper IQR fence `high = q3 + iqr_k * (q3 - q1)` of `_iqr_rolling`. -/
def highAt (g : List Reading) (w i : Nat) (k : ℚ) : Option ℚ :=
  match q1At g w i, q3At g w i with
  | some a, some b => some (b + k * (b - a))
  | _, _ => none

def iqrValid (g : List Reading) (w i : Nat) (k : ℚ) : Bool :=
  (lowAt g w i k).isSome && (highAt g w i k).isSome

/-- The anomaly flag of the iqr branch:
`valid & ((flow_lpm < rolling_low) | (flow_lpm > rolling_high))`. -/
def iqrAnom (g : List Reading) (w i : Nat) (k : ℚ) : Bool :=
  iqrValid g w i k &&
    (decide (flowAt g i < (lowAt g w i k).getD 0) ||
      decide ((highAt g w i k).getD 0 < flowAt g i))

def iqrRowAt (g : List Reading) (w : Nat) (k : ℚ) (tag : String) (i : Nat) : ResultRow :=
  { meter_code := (g.getD i defaultReading).meter_code
    flow_lpm := (g.getD i defaultReading).flow_lpm
    ts := (g.getD i defaultReading).ts
    detector := tag
    rolling_mean := none
    rolling_var := none
    zscore_num := none
    rolling_low := lowAt g w i k
    rolling_high := highAt g w i k
    is_anomaly := iqrAnom g w i k }

/-- Keys of `groupby("meter_code", sort=False)`: the distinct meter codes in
order of first appearance. -/
def firstKeys : List Reading → List String
  | [] => []
  | r :: rs => r.meter_code :: (firstKeys rs).filter fun k => decide (k ≠ r.meter_code)

/-- The rows of one meter's partition, in their current relative order. -/
def groupOf (rows : List Reading) (k : String) : List Reading :=
  rows.filter fun r => decide (r.meter_code = k)

def enrichWith (rowAt : Nat → ResultRow) (n : Nat) : List ResultRow :=
  (List.range n).map rowAt

/-- Shared scaffolding of both methods: per-meter partitions, each enriched
positionally, reassembled in group order — the alignment performed by the
`to_numpy()` assignment (zscore branch) and the index `join` (iqr branch) in
the source, which rely on the sorted input having contiguous groups. -/
def pipelineWith (rowAt : List Reading → Nat → ResultRow) (rows : List Reading) :
    List ResultRow :=
  (firstKeys rows).flatMap fun k => enrichWith (rowAt (groupOf rows k)) (groupOf rows k).length

def zscorePipeline (rows : List Reading) (w : Nat) (t : ℚ) (tag : String) : List ResultRow :=
  pipelineWith (fun g i => zRowAt g w t tag i) rows

def iqrPipeline (rows : List Reading) (w : Nat) (k : ℚ) (tag : String) : List ResultRow :=
  pipelineWith (fun g i => iqrRowAt g w k tag i) rows

def _REQUIRED_COLUMNS : List String := ["meter_code", "flow_lpm", "ts"]

/-- The list `missing = [c for c in required if c not in df.columns]` of
`_validate_schema`, in the order of the required-column list. -/
def missingColumns (cols : List String) : List String :=
  _REQUIRED_COLUMNS.filter fun c => !(cols.contains c)

/-- The two fatal errors of the core: the schema `ValueError` of
`_validate_schema` (carrying the missing columns and the columns actually
received) and the invalid-method `ValueError` at the end of `detect_anomalies`
(carrying the normalized method string). -/
inductive DetectError where
  | schemaError (missing presentCols : List String)
  | invalidMethod (m : String)
deriving DecidableEq

/-- The input DataFrame: its column names (consulted by `_validate_schema`) and
its rows viewed through the three required columns. -/
structure InputDF where
  columns : List String
  rows : List Reading
deriving DecidableEq

/-- Python's `str.lower()`: lower-case every character. -/
def strLower (s : String) : String := ⟨s.data.map Char.toLower⟩

/-- Python's `str.strip()`: drop whitespace from both ends. -/
def strTrim (s : String) : String :=
  ⟨((s.data.dropWhile Char.isWhitespace).reverse.dropWhile Char.isWhitespace).reverse⟩

/-- The method normalization `method.lower().strip()`. -/
def normalizeMethod (m : String) : String := strTrim (strLower m)

/-- The stable sort of `_coerce_and_sort`:
`sort_values(["meter_code", "ts"], kind="mergesort", ignore_index=True)`. -/
def stableSortRows (rows : List Reading) : List Reading := rows.mergeSort rowLe

/-- Statement-by-statement translation of `detect_anomalies`, threading the
caller's DataFrame object through as the first component: the source copies the
input (`out = df.copy()` inside `_coerce_and_sort`) and every subsequent write
targets the copy, so the first component is returned untouched. -/
def detect_anomaliesF (df : InputDF) (window : Nat) (z_threshold : ℚ)
    (method : String) (iqr_k : ℚ) : InputDF × Except DetectError (List ResultRow) :=
  if missingColumns df.columns ≠ [] then
    (df, .error (.schemaError (missingColumns df.columns) df.columns))
  else
    let sorted := stableSortRows df.rows
    let m := normalizeMethod method
    if m = "zscore" then (df, .ok (zscorePipeline sorted window z_threshold m))
    else if m = "iqr" then (df, .ok (iqrPipeline sorted window iqr_k m))
    else (df, .error (.invalidMethod m))

/-- The result of `detect_anomalies(df, window, z_threshold, method, iqr_k)`. -/
def detect_anomalies (df : InputDF) (window : Nat) (z_threshold : ℚ)
    (method : String) (iqr_k : ℚ) : Except DetectError (List ResultRow) :=
  (detect_anomaliesF df window z_threshold method iqr_k).2

/-- The Reading fields carried through unchanged by an enriched row. -/
def toReading (r : ResultRow) : Reading := ⟨r.meter_code, r.flow_lpm, r.ts⟩

/-- One sensor's partition after the per-partition stable sort by timestamp:
the sequence whose trailing windows feed that sensor's rolling statistics. -/
def sortedPartition (df : InputDF) (K : String) : List Reading :=
  (groupOf df.rows K).mergeSort tsRowLe

/-- The Bool form of the row predicate selecting one meter's output rows. -/
def meterIs (K : String) (r : ResultRow) : Bool := decide (r.meter_code = K)

/-! ### Concrete frames used to instantiate the development -/

/-- One meter "A", three readings in timestamp order, with a jump at the end. -/
def dfA : InputDF :=
  { columns := ["meter_code", "flow_lpm", "ts"]
    rows := [⟨"A", some 10, some 0⟩, ⟨"A", some 10, some 1⟩, ⟨"A", some 16, some 2⟩] }

/-- Meters "A" and "B" interleaved in input order; "A" carries the rows of `dfA`. -/
def dfAB : InputDF :=
  { columns := ["meter_code", "flow_lpm", "ts"]
    rows := [⟨"A", some 10, some 0⟩, ⟨"B", some 5, some 0⟩, ⟨"A", some 10, some 1⟩,
             ⟨"B", some 5, some 1⟩, ⟨"A", some 16, some 2⟩] }

/-- A single reading: too little history for any window of size two or more. -/
def dfShort : InputDF :=
  { columns := ["meter_code", "flow_lpm", "ts"]
    rows := [⟨"B", some 5, some 0⟩] }

/-- One meter whose middle flow value failed numeric coercion (NaN). -/
def dfNan : InputDF :=
  { columns := ["meter_code", "flow_lpm", "ts"]
    rows := [⟨"A", some 10, some 0⟩, ⟨"A", none, some 1⟩, ⟨"A", some 10, some 2⟩] }

/-- One meter whose last reading's timestamp failed datetime coercion (NaT)
while its flow value is a valid number. -/
def dfNat : InputDF :=
  { columns := ["meter_code", "flow_lpm", "ts"]
    rows := [⟨"A", some 10, some 0⟩, ⟨"A", some 10, some 1⟩, ⟨"A", some 100, none⟩] }

/-- A frame whose shape is missing the required flow column. -/
def dfMissing : InputDF :=
  { columns := ["meter_code", "ts"]
    rows := [] }

/-! ### Order facts about the sort keys -/

theorem lexLt_self : ∀ l : List Char, lexLt l l = false := by
  intro l
  induction l with
  | nil => rfl
  | cons a as ih => simp [lexLt, ih]

theorem lexLt_trans : ∀ (l₁ l₂ l₃ : List Char),
    lexLt l₁ l₂ = true → lexLt l₂ l₃ = true → lexLt l₁ l₃ = true := by
  intro l₁
  induction l₁ with
  | nil =>
    intro l₂ l₃ h₁ h₂
    cases l₂ with
    | nil => simp [lexLt] at h₁
    | cons b bs =>
      cases l₃ with
      | nil => simp [lexLt] at h₂
      | cons c cs => simp [lexLt]
  | cons a as ih =>
    intro l₂ l₃ h₁ h₂
    cases l₂ with
    | nil => simp [lexLt] at h₁
    | cons b bs =>
      cases l₃ with
      | nil => simp [lexLt] at h₂
      | cons c cs =>
        simp only [lexLt] at h₁ h₂ ⊢
        rcases lt_trichotomy a b with hab | hab | hab
        · rcases lt_trichotomy b c with hbc | hbc | hbc
          · simp [lt_trans hab hbc]
          · subst hbc; simp [hab]
          · simp [asymm hbc, hbc] at h₂
        · subst hab
          rcases lt_trichotomy a c with hac | hac | hac
          · simp [hac]
          · subst hac
            simp only [lt_irrefl, if_false] at h₁ h₂ ⊢
            exact ih bs cs h₁ h₂
          · simp [asymm hac, hac] at h₂
        · simp [asymm hab, hab] at h₁

theorem lexLt_eq_of_not : ∀ (l₁ l₂ : List Char),
    lexLt l₁ l₂ = false → lexLt l₂ l₁ = false → l₁ = l₂ := by
  intro l₁
  induction l₁ with
  | nil =>
    intro l₂ h₁ _
    cases l₂ with
    | nil => rfl
    | cons b bs => simp [lexLt] at h₁
  | cons a as ih =>
    intro l₂ h₁ h₂
    cases l₂ with
    | nil => simp [lexLt] at h₂
    | cons b bs =>
      rcases lt_trichotomy a b with hab | hab | hab
      · simp [lexLt, hab] at h₁
      · subst hab
        simp only [lexLt, lt_irrefl, if_false] at h₁ h₂
        rw [ih bs h₁ h₂]
      · simp [lexLt, asymm hab, hab] at h₂

theorem strLt_self (a : String) : strLt a a = false := lexLt_self _

theorem strLt_trans {a b c : String} (h₁ : strLt a b = true) (h₂ : strLt b c = true) :
    strLt a c = true := lexLt_trans _ _ _ h₁ h₂

theorem strLt_eq_of_not {a b : String} (h₁ : strLt a b = false) (h₂ : strLt b a = false) :
    a = b := by
  cases a with
  | mk da =>
    cases b with
    | mk db => exact congrArg String.mk (lexLt_eq_of_not _ _ h₁ h₂)

theorem tsKeyLe_refl : ∀ x, tsKeyLe x x = true := by
  intro x; cases x <;> simp [tsKeyLe]

theorem tsKeyLe_trans : ∀ x y z, tsKeyLe x y = true → tsKeyLe y z = true →
    tsKeyLe x z = true := by
  intro x y z h₁ h₂
  cases x <;> cases y <;> cases z <;> simp_all [tsKeyLe] <;> omega

theorem tsKeyLe_total : ∀ x y, (tsKeyLe x y || tsKeyLe y x) = true := by
  intro x y; cases x <;> cases y <;> simp [tsKeyLe] <;> omega

theorem tsRowLe_trans (r s u : Reading) (h₁ : tsRowLe r s = true) (h₂ : tsRowLe s u = true) :
    tsRowLe r u = true := tsKeyLe_trans _ _ _ h₁ h₂

theorem tsRowLe_total (r s : Reading) : (tsRowLe r s || tsRowLe s r) = true :=
  tsKeyLe_total _ _

theorem rowLe_trans (r s u : Reading) (h₁ : rowLe r s = true) (h₂ : rowLe s u = true) :
    rowLe r u = true := by
  simp only [rowLe, Bool.or_eq_true, Bool.and_eq_true, decide_eq_true_eq] at h₁ h₂ ⊢
  rcases h₁ with h₁ | ⟨e₁, t₁⟩
  · rcases h₂ with h₂ | ⟨e₂, t₂⟩
    · exact Or.inl (strLt_trans h₁ h₂)
    · exact Or.inl (by rw [← e₂]; exact h₁)
  · rcases h₂ with h₂ | ⟨e₂, t₂⟩
    · exact Or.inl (by rw [e₁]; exact h₂)
    · exact Or.inr ⟨e₁.trans e₂, tsKeyLe_trans _ _ _ t₁ t₂⟩

theorem rowLe_total (r s : Reading) : (rowLe r s || rowLe s r) = true := by
  cases hrs : strLt r.meter_code s.meter_code with
  | true => simp [rowLe, hrs]
  | false =>
    cases hsr : strLt s.meter_code r.meter_code with
    | true => simp [rowLe, hsr]
    | false =>
      have he := strLt_eq_of_not hrs hsr
      rcases Bool.or_eq_true (tsKeyLe r.ts s.ts) (tsKeyLe s.ts r.ts) |>.mp
          (tsKeyLe_total r.ts s.ts) with ht | ht <;>
        simp [rowLe, he, strLt_self, ht]

theorem rowLe_eq_tsRowLe {K : String} {r s : Reading}
    (hr : r.meter_code = K) (hs : s.meter_code = K) : rowLe r s = tsRowLe r s := by
  simp [rowLe, tsRowLe, hr, hs, strLt_self]

theorem rowLe_of_same_key {r s : Reading} (hm : r.meter_code = s.meter_code)
    (ht : r.ts = s.ts) : rowLe r s = true := by
  simp [rowLe, hm, ht, strLt_self, tsKeyLe_refl]

/-! ### Stable sorting commutes with partition filters

The source sorts the whole frame by the lexicographic key (meter_code, ts) with
a stable sort; restricted to one meter's partition this is exactly a stable
sort of that partition by timestamp alone.  The lemmas below prove that filter
sort commutation for `List.mergeSort`, from the stability theorem
`List.mergeSort_cons` of the standard library. -/

theorem split_unique {α : Type*} (q : α → Bool) :
    ∀ (l₁ m₁ l₂ m₂ : List α), l₁ ++ l₂ = m₁ ++ m₂ →
      (∀ b ∈ l₁, q b = false) → (∀ b ∈ l₂, q b = true) →
      (∀ b ∈ m₁, q b = false) → (∀ b ∈ m₂, q b = true) → l₁ = m₁ := by
  intro l₁
  induction l₁ with
  | nil =>
    intro m₁ l₂ m₂ he h₁ h₂ h₃ h₄
    cases m₁ with
    | nil => rfl
    | cons x m₁' =>
      exfalso
      rw [List.nil_append] at he
      have hx : x ∈ l₂ := by rw [he]; exact List.mem_append_left _ (List.mem_cons_self _ _)
      have := h₂ x hx
      have := h₃ x (List.mem_cons_self _ _)
      simp_all
  | cons x l₁' ih =>
    intro m₁ l₂ m₂ he h₁ h₂ h₃ h₄
    cases m₁ with
    | nil =>
      exfalso
      rw [List.nil_append] at he
      have hx : x ∈ m₂ := by rw [← he]; exact List.mem_append_left _ (List.mem_cons_self _ _)
      have := h₄ x hx
      have := h₁ x (List.mem_cons_self _ _)
      simp_all
    | cons y m₁' =>
      simp only [List.cons_append] at he
      injection he with hxy he'
      subst hxy
      rw [ih m₁' l₂ m₂ he' (fun b hb => h₁ b (List.mem_cons_of_mem _ hb)) h₂
        (fun b hb => h₃ b (List.mem_cons_of_mem _ hb)) h₄]

theorem filter_mergeSort {α : Type*} (le le' : α → α → Bool) (p : α → Bool)
    (ltr : ∀ a b c, le a b = true → le b c = true → le a c = true)
    (lto : ∀ a b, (le a b || le b a) = true)
    (l'tr : ∀ a b c, le' a b = true → le' b c = true → le' a c = true)
    (l'to : ∀ a b, (le' a b || le' b a) = true)
    (agree : ∀ a b, p a = true → p b = true → le a b = le' a b) :
    ∀ l : List α, (l.mergeSort le).filter p = (l.filter p).mergeSort le' := by
  intro l
  induction l with
  | nil => simp
  | cons a l ih =>
    obtain ⟨l₁, l₂, h₁, h₂, h₃⟩ := List.mergeSort_cons ltr lto a l
    have hs₁ := List.sorted_mergeSort ltr lto (a :: l)
    rw [h₁] at hs₁
    have hal₂ : ∀ b ∈ l₂, le a b = true := by
      intro b hb
      exact List.rel_of_pairwise_cons (List.pairwise_append.mp hs₁).2.1 hb
    by_cases hpa : p a = true
    · obtain ⟨m₁, m₂, g₁, g₂, g₃⟩ := List.mergeSort_cons l'tr l'to a (l.filter p)
      have hs₂ := List.sorted_mergeSort l'tr l'to (a :: l.filter p)
      rw [g₁] at hs₂
      have ham₂ : ∀ b ∈ m₂, le' a b = true := by
        intro b hb
        exact List.rel_of_pairwise_cons (List.pairwise_append.mp hs₂).2.1 hb
      have key : l₁.filter p ++ l₂.filter p = m₁ ++ m₂ := by
        rw [← List.filter_append, ← h₂, ih, g₂]
      have e₁ : l₁.filter p = m₁ := by
        refine split_unique (fun b => le' a b) _ _ _ _ key ?_ ?_ ?_ ?_
        · intro b hb
          have hbl := List.mem_filter.mp hb
          show le' a b = false
          rw [← agree a b hpa hbl.2]
          have := h₃ b hbl.1
          simpa using this
        · intro b hb
          have hbl := List.mem_filter.mp hb
          show le' a b = true
          rw [← agree a b hpa hbl.2]
          exact hal₂ b hbl.1
        · intro b hb
          have := g₃ b hb
          simpa using this
        · exact ham₂
      have e₂ : l₂.filter p = m₂ := by
        rw [e₁] at key
        exact List.append_cancel_left key
      rw [h₁]
      calc (l₁ ++ a :: l₂).filter p
          = l₁.filter p ++ a :: l₂.filter p := by simp [List.filter_append, hpa]
        _ = m₁ ++ a :: m₂ := by rw [e₁, e₂]
        _ = (a :: l.filter p).mergeSort le' := g₁.symm
        _ = ((a :: l).filter p).mergeSort le' := by simp [hpa]
    · have hpa' : p a = false := by simpa using hpa
      rw [h₁]
      calc (l₁ ++ a :: l₂).filter p
          = (l₁ ++ l₂).filter p := by simp [List.filter_append, hpa']
        _ = (l.mergeSort le).filter p := by rw [h₂]
        _ = (l.filter p).mergeSort le' := ih
        _ = ((a :: l).filter p).mergeSort le' := by simp [hpa']

theorem filter_mergeSort_ties {α : Type*} (le : α → α → Bool) (p : α → Bool)
    (ltr : ∀ a b c, le a b = true → le b c = true → le a c = true)
    (lto : ∀ a b, (le a b || le b a) = true)
    (ties : ∀ a b, p a = true → p b = true → le a b = true) :
    ∀ l : List α, (l.mergeSort le).filter p = l.filter p := by
  intro l
  have h := filter_mergeSort le (fun _ _ => true) p ltr lto (fun _ _ _ _ _ => rfl)
    (fun _ _ => rfl) (fun a b ha hb => by rw [ties a b ha hb]) l
  rw [h, List.mergeSort_of_sorted]
  have : ∀ m : List α, List.Pairwise (fun _ _ : α => (true : Bool) = true) m := by
    intro m
    induction m with
    | nil => exact List.Pairwise.nil
    | cons x xs ihm => exact List.Pairwise.cons (fun y _ => rfl) ihm
  exact this _

/-- Restricting the frame-wide stable sort to one meter's partition gives the
stable sort of that partition by timestamp. -/
theorem groupOf_stableSortRows (rows : List Reading) (K : String) :
    groupOf (stableSortRows rows) K = (groupOf rows K).mergeSort tsRowLe := by
  unfold groupOf stableSortRows
  exact filter_mergeSort rowLe tsRowLe (fun r => decide (r.meter_code = K))
    rowLe_trans rowLe_total tsRowLe_trans
    (fun r s => tsRowLe_total r s)
    (fun a b ha hb => rowLe_eq_tsRowLe (of_decide_eq_true ha) (of_decide_eq_true hb)) rows

/-- Rows sharing the full sort key (meter and timestamp) keep their original
relative input order through the stable sort. -/
theorem stableSortRows_tie_filter (rows : List Reading) (K : String) (τ : Option Int) :
    (stableSortRows rows).filter (fun r => decide (r.meter_code = K ∧ r.ts = τ)) =
      rows.filter (fun r => decide (r.meter_code = K ∧ r.ts = τ)) := by
  unfold stableSortRows
  refine filter_mergeSort_ties rowLe _ rowLe_trans rowLe_total ?_ rows
  intro a b ha hb
  have ha' := of_decide_eq_true ha
  have hb' := of_decide_eq_true hb
  exact rowLe_of_same_key (ha'.1.trans hb'.1.symm) (ha'.2.trans hb'.2.symm)

/-- Within one meter's stable-sorted partition, rows sharing a timestamp keep
their original relative input order. -/
theorem sortedPartition_tie_filter (rows : List Reading) (K : String) (τ : Option Int) :
    ((groupOf rows K).mergeSort tsRowLe).filter (fun r => decide (r.ts = τ)) =
      (groupOf rows K).filter (fun r => decide (r.ts = τ)) := by
  refine filter_mergeSort_ties tsRowLe _ tsRowLe_trans (fun r s => tsRowLe_total r s) ?_ _
  intro a b ha hb
  have ha' := of_decide_eq_true ha
  have hb' := of_decide_eq_true hb
  unfold tsRowLe
  rw [ha'.trans hb'.symm]
  exact tsKeyLe_refl _

/-! ### Decomposing the pipeline into per-meter partitions -/

theorem flatMap_congr {α β : Type*} {l : List α} {f g : α → List β}
    (h : ∀ a ∈ l, f a = g a) : l.flatMap f = l.flatMap g := by
  induction l with
  | nil => rfl
  | cons x xs ih =>
    rw [List.flatMap_cons, List.flatMap_cons, h x (List.mem_cons_self _ _),
      ih fun a ha => h a (List.mem_cons_of_mem _ ha)]

theorem mem_firstKeys {rows : List Reading} {K : String} :
    K ∈ firstKeys rows ↔ ∃ r ∈ rows, r.meter_code = K := by
  induction rows with
  | nil => simp [firstKeys]
  | cons r rs ih =>
    simp only [firstKeys, List.mem_cons, List.mem_filter]
    constructor
    · rintro (h | ⟨h, _⟩)
      · exact ⟨r, Or.inl rfl, h.symm⟩
      · obtain ⟨s, hs, he⟩ := ih.mp h
        exact ⟨s, Or.inr hs, he⟩
    · rintro ⟨s, hs, he⟩
      by_cases hK : K = r.meter_code
      · exact Or.inl hK
      · rcases hs with rfl | hs'
        · exact absurd he.symm hK
        · exact Or.inr ⟨ih.mpr ⟨s, hs', he⟩, by simpa using hK⟩

theorem firstKeys_nodup (rows : List Reading) : (firstKeys rows).Nodup := by
  induction rows with
  | nil => simp [firstKeys]
  | cons r rs ih =>
    simp only [firstKeys]
    refine List.nodup_cons.mpr ⟨?_, List.Nodup.filter _ ih⟩
    intro hmem
    have := (List.mem_filter.mp hmem).2
    simp at this

theorem filter_flatMap_blocks (ks : List String) (f : String → List ResultRow)
    (hf : ∀ k, ∀ row ∈ f k, row.meter_code = k) (K : String) (hnd : ks.Nodup) :
    (ks.flatMap f).filter (meterIs K) = if K ∈ ks then f K else [] := by
  induction ks with
  | nil => simp
  | cons k ks ih =>
    have hnd' := List.nodup_cons.mp hnd
    rw [List.flatMap_cons, List.filter_append, ih hnd'.2]
    by_cases hk : k = K
    · subst hk
      have h1 : (f k).filter (meterIs k) = f k :=
        List.filter_eq_self.mpr fun row hrow => by simp [meterIs, hf k row hrow]
      have h2 : k ∉ ks := hnd'.1
      simp [h1, h2]
    · have h1 : (f k).filter (meterIs K) = [] :=
        List.filter_eq_nil_iff.mpr fun row hrow => by simp [meterIs, hf k row hrow, hk]
      simp [h1, List.mem_cons, Ne.symm hk]

theorem filter_pipelineWith (rowAt : List Reading → Nat → ResultRow)
    (hmeter : ∀ g i, (rowAt g i).meter_code = (g.getD i defaultReading).meter_code)
    (rows : List Reading) (K : String) :
    (pipelineWith rowAt rows).filter (meterIs K) =
      enrichWith (rowAt (groupOf rows K)) (groupOf rows K).length := by
  unfold pipelineWith
  have hf : ∀ k, ∀ row ∈ enrichWith (rowAt (groupOf rows k)) (groupOf rows k).length,
      row.meter_code = k := by
    intro k row hrow
    unfold enrichWith at hrow
    obtain ⟨i, hi, rfl⟩ := List.mem_map.mp hrow
    have hi' : i < (groupOf rows k).length := List.mem_range.mp hi
    rw [hmeter]
    have hg : (groupOf rows k).getD i defaultReading ∈ groupOf rows k := by
      rw [List.getD_eq_getElem _ _ hi']
      exact List.getElem_mem _
    exact of_decide_eq_true (List.mem_filter.mp hg).2
  rw [filter_flatMap_blocks _ _ hf K (firstKeys_nodup rows)]
  by_cases hK : K ∈ firstKeys rows
  · simp [hK]
  · have h0 : groupOf rows K = [] := by
      refine List.filter_eq_nil_iff.mpr ?_
      intro r hr hc
      exact hK (mem_firstKeys.mpr ⟨r, hr, of_decide_eq_true hc⟩)
    simp [hK, h0, enrichWith]

theorem groupOf_cons_self (r : Reading) (rs : List Reading) :
    groupOf (r :: rs) r.meter_code = r :: groupOf rs r.meter_code := by
  simp [groupOf]

theorem groupOf_cons_ne (r : Reading) (rs : List Reading) {k : String}
    (h : k ≠ r.meter_code) : groupOf (r :: rs) k = groupOf rs k := by
  simp [groupOf, List.filter_cons, Ne.symm h]

/-- The per-meter partitions, reassembled in first-appearance key order, are a
permutation of the input rows: no row is dropped or duplicated. -/
theorem flatMap_groupOf_perm : ∀ rows : List Reading,
    ((firstKeys rows).flatMap fun k => groupOf rows k) ~ rows := by
  intro rows
  induction rows with
  | nil => simp [firstKeys]
  | cons r rs ih =>
    have hkeys : firstKeys (r :: rs) =
        r.meter_code :: (firstKeys rs).filter (fun k => decide (k ≠ r.meter_code)) := rfl
    rw [hkeys, List.flatMap_cons, groupOf_cons_self]
    have hcong : (((firstKeys rs).filter fun k => decide (k ≠ r.meter_code)).flatMap
          fun k => groupOf (r :: rs) k) =
        ((firstKeys rs).filter fun k => decide (k ≠ r.meter_code)).flatMap
          fun k => groupOf rs k := by
      refine flatMap_congr ?_
      intro k hk
      exact groupOf_cons_ne r rs (of_decide_eq_true (List.mem_filter.mp hk).2)
    rw [hcong, List.cons_append]
    refine List.Perm.cons r ?_
    by_cases hm : r.meter_code ∈ firstKeys rs
    · have hnd := firstKeys_nodup rs
      have herase : (List.filter (fun k => decide (k ≠ r.meter_code)) (firstKeys rs)) =
          (firstKeys rs).erase r.meter_code := by
        rw [List.Nodup.erase_eq_filter hnd]
        refine List.filter_congr ?_
        intro k _
        simp [bne, beq_eq_decide]
      have hperm : firstKeys rs ~
          r.meter_code :: (firstKeys rs).filter fun k => decide (k ≠ r.meter_code) := by
        rw [herase]
        exact List.perm_cons_erase hm
      calc groupOf rs r.meter_code ++
            (((firstKeys rs).filter fun k => decide (k ≠ r.meter_code)).flatMap
              fun k => groupOf rs k)
          = ((r.meter_code :: (firstKeys rs).filter fun k => decide (k ≠ r.meter_code)).flatMap
              fun k => groupOf rs k) := by rw [List.flatMap_cons]
        _ ~ ((firstKeys rs).flatMap fun k => groupOf rs k) :=
            (hperm.flatMap_right fun k => groupOf rs k).symm
        _ ~ rs := ih
    · have h0 : groupOf rs r.meter_code = [] := by
        refine List.filter_eq_nil_iff.mpr ?_
        intro r' hr' hc
        exact hm (mem_firstKeys.mpr ⟨r', hr', of_decide_eq_true hc⟩)
      have hfix : ((firstKeys rs).filter fun k => decide (k ≠ r.meter_code)) = firstKeys rs := by
        refine List.filter_eq_self.mpr ?_
        intro k hk
        simp only [decide_eq_true_eq]
        rintro rfl
        exact hm hk
      rw [h0, hfix, List.nil_append]
      exact ih

theorem enrichWith_length (rowAt : Nat → ResultRow) (n : Nat) :
    (enrichWith rowAt n).length = n := by
  simp [enrichWith]

theorem pipelineWith_length (rowAt : List Reading → Nat → ResultRow) (rows : List Reading) :
    (pipelineWith rowAt rows).length = rows.length := by
  unfold pipelineWith
  rw [List.length_flatMap]
  calc ((firstKeys rows).map fun k =>
          (enrichWith (rowAt (groupOf rows k)) (groupOf rows k).length).length).sum
      = ((firstKeys rows).map fun k => (groupOf rows k).length).sum := by
        rw [List.map_congr_left fun k _ => enrichWith_length _ _]
    _ = (((firstKeys rows).flatMap fun k => groupOf rows k).length) := by
        rw [List.length_flatMap]
        rfl
    _ = rows.length := (flatMap_groupOf_perm rows).length_eq

theorem enrichWith_getElem? (rowAt : Nat → ResultRow) (n j : Nat) (hj : j < n) :
    (enrichWith rowAt n)[j]? = some (rowAt j) := by
  simp [enrichWith, List.getElem?_range hj]

theorem enrichWith_map_toReading (rowAt : Nat → ResultRow) (g : List Reading)
    (hproj : ∀ i, i < g.length → toReading (rowAt i) = g.getD i defaultReading) :
    (enrichWith rowAt g.length).map toReading = g := by
  refine List.ext_getElem (by simp [enrichWith]) ?_
  intro i h₁ h₂
  simp only [enrichWith, List.getElem_map, List.getElem_range]
  rw [hproj i h₂, List.getD_eq_getElem _ _ h₂]

/-! ### Evaluation equations for detect_anomalies -/

theorem detect_schema_error (df : InputDF) (w : Nat) (t : ℚ) (m : String) (k : ℚ)
    (hs : missingColumns df.columns ≠ []) :
    detect_anomalies df w t m k =
      .error (.schemaError (missingColumns df.columns) df.columns) := by
  unfold detect_anomalies detect_anomaliesF
  simp [hs]

theorem detect_eq_zscore (df : InputDF) (w : Nat) (t : ℚ) (m : String) (k : ℚ)
    (hs : missingColumns df.columns = []) (hm : normalizeMethod m = "zscore") :
    detect_anomalies df w t m k =
      .ok (zscorePipeline (stableSortRows df.rows) w t "zscore") := by
  unfold detect_anomalies detect_anomaliesF
  simp [hs, hm]

theorem detect_eq_iqr (df : InputDF) (w : Nat) (t : ℚ) (m : String) (k : ℚ)
    (hs : missingColumns df.columns = []) (hm : normalizeMethod m = "iqr") :
    detect_anomalies df w t m k =
      .ok (iqrPipeline (stableSortRows df.rows) w k "iqr") := by
  unfold detect_anomalies detect_anomaliesF
  simp [hs, hm]

theorem detect_invalid_method (df : InputDF) (w : Nat) (t : ℚ) (m : String) (k : ℚ)
    (hs : missingColumns df.columns = []) (h1 : normalizeMethod m ≠ "zscore")
    (h2 : normalizeMethod m ≠ "iqr") :
    detect_anomalies df w t m k = .error (.invalidMethod (normalizeMethod m)) := by
  unfold detect_anomalies detect_anomaliesF
  simp [hs, h1, h2]

/-! ### Facts about rolling windows -/

theorem allSome_eq_none_of_mem_none {l : List (Option ℚ)} (h : none ∈ l) :
    allSome l = none := by
  induction l with
  | nil => simp at h
  | cons x xs ih =>
    cases x with
    | none => rfl
    | some a =>
      have hx : none ∈ xs := by
        rcases List.mem_cons.mp h with h' | h'
        · exact absurd h' (by simp)
        · exact h'
      simp [allSome, ih hx]

theorem allSome_length : ∀ {l : List (Option ℚ)} {xs : List ℚ},
    allSome l = some xs → xs.length = l.length := by
  intro l
  induction l with
  | nil => intro xs h; simp [allSome] at h; simp [← h]
  | cons x t ih =>
    intro xs h
    cases x with
    | none => simp [allSome] at h
    | some a =>
      simp only [allSome, Option.map_eq_some'] at h
      obtain ⟨ys, hy, rfl⟩ := h
      simp [ih hy]

theorem rwindow_bounds {vals : List (Option ℚ)} {w i : Nat} {ws : List ℚ}
    (h : rwindow vals w i = some ws) : 1 ≤ w ∧ w ≤ i + 1 ∧ i < vals.length := by
  by_cases hc : 1 ≤ w ∧ w ≤ i + 1 ∧ i < vals.length
  · exact hc
  · rw [rwindow, if_neg hc] at h
    exact absurd h (by simp)

theorem rwindow_length {vals : List (Option ℚ)} {w i : Nat} {ws : List ℚ}
    (h : rwindow vals w i = some ws) : ws.length = w := by
  obtain ⟨h1, h2, h3⟩ := rwindow_bounds h
  rw [rwindow, if_pos ⟨h1, h2, h3⟩] at h
  have := allSome_length h
  rw [this, List.length_take, List.length_drop]
  omega

theorem rwindow_none_of_short {vals : List (Option ℚ)} {w i : Nat}
    (h : vals.length < w) : rwindow vals w i = none := by
  rw [rwindow, if_neg]
  rintro ⟨h1, h2, h3⟩
  omega

theorem rwindow_none_of_none_inside {vals : List (Option ℚ)} {w i j0 : Nat}
    (hj0 : j0 ≤ i) (hlo : i + 1 ≤ w + j0) (hnone : vals[j0]? = some none) :
    rwindow vals w i = none := by
  rw [rwindow]
  split
  · rename_i hc
    obtain ⟨h1, h2, h3⟩ := hc
    apply allSome_eq_none_of_mem_none
    have hidx : i + 1 - w + (j0 - (i + 1 - w)) = j0 := by omega
    have hlt : j0 - (i + 1 - w) < w := by omega
    have hget : ((vals.drop (i + 1 - w)).take w)[j0 - (i + 1 - w)]? = some none := by
      rw [List.getElem?_take, if_pos hlt, List.getElem?_drop, hidx]
      exact hnone
    obtain ⟨hlt', hel⟩ := List.getElem?_eq_some_iff.mp hget
    exact hel ▸ List.getElem_mem hlt'
  · rfl

/-! ### The real-number bridge for the z-score comparison -/

/-- Over the reals: for positive variance, the comparison the source performs,
`|z| > t` with `z = num / sqrt var`, is exactly `zAbsGt num var t`. -/
theorem absGt_sq_bridge (num var t : ℚ) (hv : (0 : ℚ) < var) :
    ((t : ℝ) < |(num : ℝ)| / Real.sqrt (var : ℝ)) ↔ zAbsGt num var t = true := by
  have hvR : (0 : ℝ) < (var : ℝ) := by exact_mod_cast hv
  have hsq : 0 < Real.sqrt (var : ℝ) := Real.sqrt_pos.mpr hvR
  unfold zAbsGt
  split
  · rename_i ht
    have htR : (t : ℝ) < 0 := by exact_mod_cast ht
    have hnn : (0 : ℝ) ≤ |(num : ℝ)| / Real.sqrt (var : ℝ) :=
      div_nonneg (abs_nonneg _) hsq.le
    simp [lt_of_lt_of_le htR hnn]
  · rename_i ht
    push_neg at ht
    have htR : (0 : ℝ) ≤ (t : ℝ) := by exact_mod_cast ht
    rw [lt_div_iff₀ hsq, decide_eq_true_eq]
    have hiff : (t : ℝ) * Real.sqrt (var : ℝ) < |(num : ℝ)| ↔
        ((t : ℝ) * Real.sqrt (var : ℝ)) ^ 2 < |(num : ℝ)| ^ 2 := by
      rw [pow_lt_pow_iff_left₀ (mul_nonneg htR hsq.le) (abs_nonneg _) (by norm_num)]
    rw [hiff, mul_pow, Real.sq_sqrt hvR.le, sq_abs]
    constructor
    · intro h
      have : ((t : ℚ) : ℝ) ^ 2 * ((var : ℚ) : ℝ) < ((num : ℚ) : ℝ) ^ 2 := h
      exact_mod_cast this
    · intro h
      exact_mod_cast h

/-! ### Per-meter shape of the two pipelines -/

theorem zscoreFilter_eq (df : InputDF) (w : Nat) (t : ℚ) (K : String) :
    (zscorePipeline (stableSortRows df.rows) w t "zscore").filter (meterIs K) =
      enrichWith (fun i => zRowAt (sortedPartition df K) w t "zscore" i)
        (sortedPartition df K).length := by
  unfold zscorePipeline
  rw [filter_pipelineWith (fun g i => zRowAt g w t "zscore" i) (fun _ _ => rfl) _ K,
    groupOf_stableSortRows]
  rfl

theorem iqrFilter_eq (df : InputDF) (w : Nat) (kq : ℚ) (K : String) :
    (iqrPipeline (stableSortRows df.rows) w kq "iqr").filter (meterIs K) =
      enrichWith (fun i => iqrRowAt (sortedPartition df K) w kq "iqr" i)
        (sortedPartition df K).length := by
  unfold iqrPipeline
  rw [filter_pipelineWith (fun g i => iqrRowAt g w kq "iqr" i) (fun _ _ => rfl) _ K,
    groupOf_stableSortRows]
  rfl

theorem mem_pipelineWith {rowAt : List Reading → Nat → ResultRow} {rows : List Reading}
    {row : ResultRow} (h : row ∈ pipelineWith rowAt rows) :
    ∃ k i, i < (groupOf rows k).length ∧ row = rowAt (groupOf rows k) i := by
  unfold pipelineWith at h
  obtain ⟨k, _, hrow⟩ := List.mem_flatMap.mp h
  unfold enrichWith at hrow
  obtain ⟨i, hi, rfl⟩ := List.mem_map.mp hrow
  exact ⟨k, i, List.mem_range.mp hi, rfl⟩

theorem sortedPartition_length (df : InputDF) (K : String) :
    (sortedPartition df K).length = (groupOf df.rows K).length := by
  unfold sortedPartition
  exact List.length_mergeSort _

/-! ### The claims -/

/-- C1: under method "zscore", for every row of a sensor partition whose
trailing window of `window` prior-and-current observations is fully available,
`detect_anomalies` sets the rolling mean to the arithmetic mean and the rolling
standard deviation to the population standard deviation (divisor = window
size) of exactly that window — here represented by its square `rolling_var`;
when the deviation is nonzero the z-score numerator `value - mean` is set and
the row is flagged if and only if `|z| > z_threshold` holds (the comparison
`zAbsGt`, equivalent over ℝ to `|z| > t` by `absGt_sq_bridge`), and the
boundary case `|z| = z_threshold` is never flagged (strict inequality). -/
theorem C1_zscore_window_statistics
    (df : InputDF) (w : Nat) (t : ℚ) (m : String) (kq : ℚ) (K : String) (j : Nat)
    (ws : List ℚ) (vj : ℚ)
    (hs : missingColumns df.columns = [])
    (hm : normalizeMethod m = "zscore")
    (hwin : rwindow (groupVals (sortedPartition df K)) w j = some ws)
    (hv : ((sortedPartition df K).getD j defaultReading).flow_lpm = some vj) :
    ∃ res row,
      detect_anomalies df w t m kq = .ok res ∧
      (res.filter (meterIs K))[j]? = some row ∧
      ws.length = w ∧
      row.rolling_mean = some (listMean ws) ∧
      row.rolling_var = some (popVar ws) ∧
      (0 < popVar ws →
        row.zscore_num = some (vj - listMean ws) ∧
        (row.is_anomaly = true ↔ zAbsGt (vj - listMean ws) (popVar ws) t = true) ∧
        (0 ≤ t → (vj - listMean ws) ^ 2 = t ^ 2 * popVar ws → row.is_anomaly = false)) := by
  have hj : j < (sortedPartition df K).length := by
    have h3 := (rwindow_bounds hwin).2.2
    simpa [groupVals] using h3
  refine ⟨zscorePipeline (stableSortRows df.rows) w t "zscore",
    zRowAt (sortedPartition df K) w t "zscore" j,
    detect_eq_zscore df w t m kq hs hm, ?_, rwindow_length hwin, ?_, ?_, ?_⟩
  · rw [zscoreFilter_eq df w t K]
    exact enrichWith_getElem? _ _ j hj
  · simp [zRowAt, zMean, hwin]
  · simp [zRowAt, zVar, hwin]
  · intro hvar
    have hstd : zStdPos (sortedPartition df K) w j = true := by
      simp [zStdPos, zVar, hwin, hvar]
    rw [List.getD_eq_getElem?_getD] at hv
    refine ⟨?_, ?_, ?_⟩
    · simp [zRowAt, zNum, hstd, flowAt, hv, zMean, hwin]
    · simp [zRowAt, zAnom, hstd, flowAt, hv, zMean, zVar, hwin]
    · intro ht heq
      have hfa : zAbsGt (vj - listMean ws) (popVar ws) t = false := by
        unfold zAbsGt
        rw [if_neg (not_lt.mpr ht), decide_eq_false_iff_not, ← heq]
        exact lt_irrefl _
      simp [zRowAt, zAnom, hstd, flowAt, hv, zMean, zVar, hwin, hfa]

theorem C1_zscore_window_statistics_witness :
    ∃ res row,
      detect_anomalies dfA 2 (1 / 2) "zscore" (3 / 2) = .ok res ∧
      (res.filter (meterIs "A"))[2]? = some row ∧
      ([(10 : ℚ), 16]).length = 2 ∧
      row.rolling_mean = some (listMean [10, 16]) ∧
      row.rolling_var = some (popVar [10, 16]) ∧
      (0 < popVar [10, 16] →
        row.zscore_num = some (16 - listMean [10, 16]) ∧
        (row.is_anomaly = true ↔
          zAbsGt (16 - listMean [10, 16]) (popVar [10, 16]) (1 / 2) = true) ∧
        (0 ≤ (1 / 2 : ℚ) → ((16 : ℚ) - listMean [10, 16]) ^ 2 = (1 / 2 : ℚ) ^ 2 * popVar [10, 16] →
          row.is_anomaly = false)) := by
  have hsp : sortedPartition dfA "A" = dfA.rows := by
    unfold sortedPartition
    have hg : groupOf dfA.rows "A" = dfA.rows := by decide
    rw [hg]
    exact List.mergeSort_of_sorted (by decide)
  exact C1_zscore_window_statistics dfA 2 (1 / 2) "zscore" (3 / 2) "A" 2 [10, 16] 16
    (by decide) (by decide) (by rw [hsp]; decide) (by rw [hsp]; decide)

/-- C2: under method "iqr", for every row of a sensor partition whose trailing
window of `window` observations is fully available, `detect_anomalies` sets
`rolling_low = Q1 - iqr_k*(Q3-Q1)` and `rolling_high = Q3 + iqr_k*(Q3-Q1)`
with Q1, Q3 the linear-interpolation quartiles of that window, flags the row
if and only if the value lies strictly outside the fences, and leaves the
rolling mean, standard deviation and z-score fields undefined on every row. -/
theorem C2_iqr_window_fences
    (df : InputDF) (w : Nat) (t : ℚ) (m : String) (kq : ℚ) (K : String) (j : Nat)
    (ws : List ℚ) (vj : ℚ)
    (hs : missingColumns df.columns = [])
    (hm : normalizeMethod m = "iqr")
    (hwin : rwindow (groupVals (sortedPartition df K)) w j = some ws)
    (hv : ((sortedPartition df K).getD j defaultReading).flow_lpm = some vj) :
    ∃ res row,
      detect_anomalies df w t m kq = .ok res ∧
      (res.filter (meterIs K))[j]? = some row ∧
      ws.length = w ∧
      row.rolling_low = some (quantileLinear (1 / 4) ws -
        kq * (quantileLinear (3 / 4) ws - quantileLinear (1 / 4) ws)) ∧
      row.rolling_high = some (quantileLinear (3 / 4) ws +
        kq * (quantileLinear (3 / 4) ws - quantileLinear (1 / 4) ws)) ∧
      (row.is_anomaly = true ↔
        (vj < quantileLinear (1 / 4) ws -
            kq * (quantileLinear (3 / 4) ws - quantileLinear (1 / 4) ws) ∨
          quantileLinear (3 / 4) ws +
            kq * (quantileLinear (3 / 4) ws - quantileLinear (1 / 4) ws) < vj)) ∧
      (∀ row' ∈ res, row'.rolling_mean = none ∧ row'.rolling_var = none ∧
        row'.zscore_num = none) := by
  have hj : j < (sortedPartition df K).length := by
    have h3 := (rwindow_bounds hwin).2.2
    simpa [groupVals] using h3
  have hlow : lowAt (sortedPartition df K) w j kq = some (quantileLinear (1 / 4) ws -
      kq * (quantileLinear (3 / 4) ws - quantileLinear (1 / 4) ws)) := by
    simp [lowAt, q1At, q3At, hwin]
  have hhigh : highAt (sortedPartition df K) w j kq = some (quantileLinear (3 / 4) ws +
      kq * (quantileLinear (3 / 4) ws - quantileLinear (1 / 4) ws)) := by
    simp [highAt, q1At, q3At, hwin]
  refine ⟨iqrPipeline (stableSortRows df.rows) w kq "iqr",
    iqrRowAt (sortedPartition df K) w kq "iqr" j,
    detect_eq_iqr df w t m kq hs hm, ?_, rwindow_length hwin, ?_, ?_, ?_, ?_⟩
  · rw [iqrFilter_eq df w kq K]
    exact enrichWith_getElem? _ _ j hj
  · simp [iqrRowAt, hlow]
  · simp [iqrRowAt, hhigh]
  · rw [List.getD_eq_getElem?_getD] at hv
    simp [iqrRowAt, iqrAnom, iqrValid, hlow, hhigh, flowAt, hv]
  · intro row' hrow'
    obtain ⟨k', i', _, rfl⟩ := mem_pipelineWith hrow'
    exact ⟨rfl, rfl, rfl⟩

theorem C2_iqr_window_fences_witness :
    ∃ res row,
      detect_anomalies dfA 2 3 "iqr" (3 / 2) = .ok res ∧
      (res.filter (meterIs "A"))[2]? = some row ∧
      ([(10 : ℚ), 16]).length = 2 ∧
      row.rolling_low = some (quantileLinear (1 / 4) [10, 16] -
        (3 / 2) * (quantileLinear (3 / 4) [10, 16] - quantileLinear (1 / 4) [10, 16])) ∧
      row.rolling_high = some (quantileLinear (3 / 4) [10, 16] +
        (3 / 2) * (quantileLinear (3 / 4) [10, 16] - quantileLinear (1 / 4) [10, 16])) ∧
      (row.is_anomaly = true ↔
        ((16 : ℚ) < quantileLinear (1 / 4) [10, 16] -
            (3 / 2) * (quantileLinear (3 / 4) [10, 16] - quantileLinear (1 / 4) [10, 16]) ∨
          quantileLinear (3 / 4) [10, 16] +
            (3 / 2) * (quantileLinear (3 / 4) [10, 16] - quantileLinear (1 / 4) [10, 16]) <
            (16 : ℚ))) ∧
      (∀ row' ∈ res, row'.rolling_mean = none ∧ row'.rolling_var = none ∧
        row'.zscore_num = none) := by
  have hsp : sortedPartition dfA "A" = dfA.rows := by
    unfold sortedPartition
    have hg : groupOf dfA.rows "A" = dfA.rows := by decide
    rw [hg]
    exact List.mergeSort_of_sorted (by decide)
  exact C2_iqr_window_fences dfA 2 3 "iqr" (3 / 2) "A" 2 [10, 16] 16
    (by decide) (by decide) (by rw [hsp]; decide) (by rw [hsp]; decide)

/-- C3 (counterexample to the claim as stated): the claim asserts that a row
with an unparseable timestamp gets undefined statistics and is never flagged.
In the source, `pd.to_datetime(..., errors="coerce")` turns the bad timestamp
into NaT, the row is sorted to the end of its meter partition
(`na_position="last"`) and its still-numeric flow value participates in the
positional rolling windows: on `dfNat` the NaT row receives the defined
statistics of the window [10, 100] and is flagged at threshold 1/2. -/
theorem C3_unparseable_ts_counterexample :
    ∃ res row,
      detect_anomalies dfNat 2 (1 / 2) "zscore" (3 / 2) = .ok res ∧
      (res.filter (meterIs "A"))[2]? = some row ∧
      row.ts = none ∧
      row.rolling_mean = some 55 ∧
      row.rolling_var = some 2025 ∧
      row.zscore_num = some 45 ∧
      row.is_anomaly = true := by
  have hsp : sortedPartition dfNat "A" = dfNat.rows := by
    unfold sortedPartition
    have hg : groupOf dfNat.rows "A" = dfNat.rows := by decide
    rw [hg]
    exact List.mergeSort_of_sorted (by decide)
  have hwin : rwindow (groupVals (sortedPartition dfNat "A")) 2 2 = some [10, 100] := by
    rw [hsp]; decide
  have hmean : listMean [(10 : ℚ), 100] = 55 := by norm_num [listMean]
  have hvar : popVar [(10 : ℚ), 100] = 2025 := by norm_num [popVar, listMean]
  have hstd : zStdPos (sortedPartition dfNat "A") 2 2 = true := by
    simp only [zStdPos, zVar, hwin, Option.map_some', hvar, decide_eq_true_eq]
    norm_num
  have hflow : flowAt (sortedPartition dfNat "A") 2 = 100 := by
    unfold flowAt
    rw [hsp]
    decide
  refine ⟨zscorePipeline (stableSortRows dfNat.rows) 2 (1 / 2) "zscore",
    zRowAt (sortedPartition dfNat "A") 2 (1 / 2) "zscore" 2,
    detect_eq_zscore dfNat 2 (1 / 2) "zscore" (3 / 2) (by decide) (by decide),
    ?_, ?_, ?_, ?_, ?_, ?_⟩
  · rw [zscoreFilter_eq dfNat 2 (1 / 2) "A"]
    exact enrichWith_getElem? _ _ 2 (by rw [hsp]; decide)
  · show ((sortedPartition dfNat "A").getD 2 defaultReading).ts = none
    rw [hsp]; decide
  · simp [zRowAt, zMean, hwin, hmean]
  · simp [zRowAt, zVar, hwin, hvar]
  · simp only [zRowAt, zNum, hstd, if_true, hflow, zMean, hwin, Option.map_some', hmean,
      Option.getD_some, Option.some.injEq]
    norm_num
  · simp only [zRowAt, zAnom, hstd, Bool.true_and, hflow, zMean, zVar, hwin, Option.map_some',
      hmean, hvar, Option.getD_some, zAbsGt]
    norm_num

/-- C3 (amended): the only failure modes are the schema error (naming the
missing columns and the columns actually present) and the invalid-method
error; with a complete schema and a recognized method the call returns
normally with one output row per input row, never dropping a row, and a row
whose flow value failed numeric coercion gets undefined rolling statistics and
is never flagged, under either method.  (An unparseable timestamp, by
contrast, becomes NaT: the row is kept, sorted to the end of its partition,
still enters the positional rolling windows, and can be flagged — see
`C3_unparseable_ts_counterexample`.) -/
theorem C3_failure_modes (df : InputDF) (w : Nat) (t : ℚ) (m : String) (kq : ℚ) :
    (missingColumns df.columns ≠ [] →
      detect_anomalies df w t m kq =
        .error (.schemaError (missingColumns df.columns) df.columns)) ∧
    (missingColumns df.columns = [] → normalizeMethod m ≠ "zscore" →
      normalizeMethod m ≠ "iqr" →
      detect_anomalies df w t m kq = .error (.invalidMethod (normalizeMethod m))) ∧
    (missingColumns df.columns = [] →
      (normalizeMethod m = "zscore" ∨ normalizeMethod m = "iqr") →
      ∃ res, detect_anomalies df w t m kq = .ok res ∧ res.length = df.rows.length) ∧
    (missingColumns df.columns = [] →
      (normalizeMethod m = "zscore" ∨ normalizeMethod m = "iqr") →
      ∀ K j, j < (sortedPartition df K).length →
        ((sortedPartition df K).getD j defaultReading).flow_lpm = none →
        ∃ res row, detect_anomalies df w t m kq = .ok res ∧
          (res.filter (meterIs K))[j]? = some row ∧
          row.rolling_mean = none ∧ row.rolling_var = none ∧ row.zscore_num = none ∧
          row.rolling_low = none ∧ row.rolling_high = none ∧ row.is_anomaly = false) := by
  refine ⟨fun hs => detect_schema_error df w t m kq hs,
    fun hs h1 h2 => detect_invalid_method df w t m kq hs h1 h2, ?_, ?_⟩
  · intro hs hmv
    rcases hmv with hm | hm
    · refine ⟨_, detect_eq_zscore df w t m kq hs hm, ?_⟩
      unfold zscorePipeline
      rw [pipelineWith_length]
      unfold stableSortRows
      exact List.length_mergeSort _
    · refine ⟨_, detect_eq_iqr df w t m kq hs hm, ?_⟩
      unfold iqrPipeline
      rw [pipelineWith_length]
      unfold stableSortRows
      exact List.length_mergeSort _
  · intro hs hmv K j hj hflow
    rw [List.getD_eq_getElem _ _ hj] at hflow
    have hnan : (groupVals (sortedPartition df K))[j]? = some none := by
      unfold groupVals
      rw [List.getElem?_map, List.getElem?_eq_getElem hj]
      simp [hflow]
    have hwin : rwindow (groupVals (sortedPartition df K)) w j = none := by
      rcases Nat.eq_zero_or_pos w with hw | hw
      · subst hw
        rw [rwindow, if_neg]
        rintro ⟨h1, _, _⟩
        omega
      · exact rwindow_none_of_none_inside (Nat.le_refl j) (by omega) hnan
    rcases hmv with hm | hm
    · have hstd : zStdPos (sortedPartition df K) w j = false := by
        simp [zStdPos, zVar, hwin]
      refine ⟨_, zRowAt (sortedPartition df K) w t "zscore" j,
        detect_eq_zscore df w t m kq hs hm, ?_, ?_, ?_, ?_, rfl, rfl, ?_⟩
      · rw [zscoreFilter_eq df w t K]
        exact enrichWith_getElem? _ _ j hj
      · simp [zRowAt, zMean, hwin]
      · simp [zRowAt, zVar, hwin]
      · simp [zRowAt, zNum, hstd]
      · simp [zRowAt, zAnom, hstd]
    · refine ⟨_, iqrRowAt (sortedPartition df K) w kq "iqr" j,
        detect_eq_iqr df w t m kq hs hm, ?_, rfl, rfl, rfl, ?_, ?_, ?_⟩
      · rw [iqrFilter_eq df w kq K]
        exact enrichWith_getElem? _ _ j hj
      · simp [iqrRowAt, lowAt, q1At, q3At, hwin]
      · simp [iqrRowAt, highAt, q1At, q3At, hwin]
      · simp [iqrRowAt, iqrAnom, iqrValid, lowAt, highAt, q1At, q3At, hwin]

theorem C3_failure_modes_witness :
    detect_anomalies dfMissing 2 3 "zscore" (3 / 2) =
      .error (.schemaError (missingColumns dfMissing.columns) dfMissing.columns) ∧
    detect_anomalies dfA 2 3 "bogus" (3 / 2) =
      .error (.invalidMethod (normalizeMethod "bogus")) ∧
    (∃ res, detect_anomalies dfA 2 3 "zscore" (3 / 2) = .ok res ∧
      res.length = dfA.rows.length) ∧
    (∃ res row, detect_anomalies dfNan 2 3 "zscore" (3 / 2) = .ok res ∧
      (res.filter (meterIs "A"))[1]? = some row ∧
      row.rolling_mean = none ∧ row.rolling_var = none ∧ row.zscore_num = none ∧
      row.rolling_low = none ∧ row.rolling_high = none ∧ row.is_anomaly = false) := by
  have hsp : sortedPartition dfNan "A" = dfNan.rows := by
    unfold sortedPartition
    have hg : groupOf dfNan.rows "A" = dfNan.rows := by decide
    rw [hg]
    exact List.mergeSort_of_sorted (by decide)
  exact ⟨(C3_failure_modes dfMissing 2 3 "zscore" (3 / 2)).1 (by decide),
    (C3_failure_modes dfA 2 3 "bogus" (3 / 2)).2.1 (by decide) (by decide) (by decide),
    (C3_failure_modes dfA 2 3 "zscore" (3 / 2)).2.2.1 (by decide) (Or.inl (by decide)),
    (C3_failure_modes dfNan 2 3 "zscore" (3 / 2)).2.2.2 (by decide) (Or.inl (by decide))
      "A" 1 (by rw [hsp]; decide) (by rw [hsp]; decide)⟩

/-- C4: the caller's DataFrame is returned unchanged — every write of the
source targets the copy made by `_coerce_and_sort`, which the embedding makes
explicit by threading the input object through `detect_anomaliesF` — and the
call never yields a partially enriched result: it either raises one of the two
fatal errors producing no output, or returns a complete result with exactly
one enriched row per input row. -/
theorem C4_input_unchanged (df : InputDF) (w : Nat) (t : ℚ) (m : String) (kq : ℚ) :
    (detect_anomaliesF df w t m kq).1 = df ∧
      ((∃ e, (detect_anomaliesF df w t m kq).2 = .error e) ∨
        (∃ res, (detect_anomaliesF df w t m kq).2 = .ok res ∧
          res.length = df.rows.length)) := by
  constructor
  · unfold detect_anomaliesF
    by_cases h : missingColumns df.columns ≠ []
    · rw [if_pos h]
    · rw [if_neg h]
      by_cases h2 : normalizeMethod m = "zscore"
      · simp [h2]
      · by_cases h3 : normalizeMethod m = "iqr" <;> simp [h2, h3]
  · by_cases h : missingColumns df.columns ≠ []
    · exact Or.inl ⟨_, detect_schema_error df w t m kq h⟩
    · have hs : missingColumns df.columns = [] := not_not.mp h
      by_cases h2 : normalizeMethod m = "zscore"
      · refine Or.inr ⟨_, detect_eq_zscore df w t m kq hs h2, ?_⟩
        unfold zscorePipeline
        rw [pipelineWith_length]
        unfold stableSortRows
        exact List.length_mergeSort _
      · by_cases h3 : normalizeMethod m = "iqr"
        · refine Or.inr ⟨_, detect_eq_iqr df w t m kq hs h3, ?_⟩
          unfold iqrPipeline
          rw [pipelineWith_length]
          unfold stableSortRows
          exact List.length_mergeSort _
        · exact Or.inl ⟨_, detect_invalid_method df w t m kq hs h2 h3⟩

/-- C5: a sensor partition holding fewer than `window` observations has every
output row unflagged with all rolling statistics undefined, under either
method: no statistic is ever computed from a partial window. -/
theorem C5_window_warmup (df : InputDF) (w : Nat) (t : ℚ) (m : String) (kq : ℚ)
    (K : String)
    (hs : missingColumns df.columns = [])
    (hmv : normalizeMethod m = "zscore" ∨ normalizeMethod m = "iqr")
    (hlen : (groupOf df.rows K).length < w) :
    ∃ res, detect_anomalies df w t m kq = .ok res ∧
      ∀ row ∈ res.filter (meterIs K),
        row.rolling_mean = none ∧ row.rolling_var = none ∧ row.zscore_num = none ∧
        row.rolling_low = none ∧ row.rolling_high = none ∧ row.is_anomaly = false := by
  have hvals : (groupVals (sortedPartition df K)).length < w := by
    simpa [groupVals, sortedPartition_length] using hlen
  have hwin : ∀ i, rwindow (groupVals (sortedPartition df K)) w i = none :=
    fun i => rwindow_none_of_short hvals
  rcases hmv with hm | hm
  · refine ⟨_, detect_eq_zscore df w t m kq hs hm, ?_⟩
    intro row hrow
    rw [zscoreFilter_eq df w t K] at hrow
    unfold enrichWith at hrow
    obtain ⟨i, _, rfl⟩ := List.mem_map.mp hrow
    refine ⟨?_, ?_, ?_, rfl, rfl, ?_⟩
    · simp [zRowAt, zMean, hwin]
    · simp [zRowAt, zVar, hwin]
    · simp [zRowAt, zNum, zStdPos, zVar, hwin]
    · simp [zRowAt, zAnom, zStdPos, zVar, hwin]
  · refine ⟨_, detect_eq_iqr df w t m kq hs hm, ?_⟩
    intro row hrow
    rw [iqrFilter_eq df w kq K] at hrow
    unfold enrichWith at hrow
    obtain ⟨i, _, rfl⟩ := List.mem_map.mp hrow
    refine ⟨rfl, rfl, rfl, ?_, ?_, ?_⟩
    · simp [iqrRowAt, lowAt, q1At, q3At, hwin]
    · simp [iqrRowAt, highAt, q1At, q3At, hwin]
    · simp [iqrRowAt, iqrAnom, iqrValid, lowAt, highAt, q1At, q3At, hwin]

theorem C5_window_warmup_witness :
    ∃ res, detect_anomalies dfShort 2 3 "zscore" (3 / 2) = .ok res ∧
      ∀ row ∈ res.filter (meterIs "B"),
        row.rolling_mean = none ∧ row.rolling_var = none ∧ row.zscore_num = none ∧
        row.rolling_low = none ∧ row.rolling_high = none ∧ row.is_anomaly = false :=
  C5_window_warmup dfShort 2 3 "zscore" (3 / 2) "B" (by decide) (Or.inl (by decide))
    (by decide)

/-- C6: under "zscore", a completed window with zero population variance (for
example `window` identical consecutive values) leaves the z-score undefined
and the row unflagged; the division is guarded by `std_pos`, so the call still
returns normally and no division by zero is ever evaluated. -/
theorem C6_zero_variance_guard
    (df : InputDF) (w : Nat) (t : ℚ) (m : String) (kq : ℚ) (K : String) (j : Nat)
    (ws : List ℚ)
    (hs : missingColumns df.columns = [])
    (hm : normalizeMethod m = "zscore")
    (hwin : rwindow (groupVals (sortedPartition df K)) w j = some ws)
    (hvar : popVar ws = 0) :
    ∃ res row,
      detect_anomalies df w t m kq = .ok res ∧
      (res.filter (meterIs K))[j]? = some row ∧
      row.rolling_var = some 0 ∧ row.zscore_num = none ∧ row.is_anomaly = false := by
  have hj : j < (sortedPartition df K).length := by
    have h3 := (rwindow_bounds hwin).2.2
    simpa [groupVals] using h3
  have hstd : zStdPos (sortedPartition df K) w j = false := by
    simp [zStdPos, zVar, hwin, hvar]
  refine ⟨_, zRowAt (sortedPartition df K) w t "zscore" j,
    detect_eq_zscore df w t m kq hs hm, ?_, ?_, ?_, ?_⟩
  · rw [zscoreFilter_eq df w t K]
    exact enrichWith_getElem? _ _ j hj
  · simp [zRowAt, zVar, hwin, hvar]
  · simp [zRowAt, zNum, hstd]
  · simp [zRowAt, zAnom, hstd]

theorem C6_zero_variance_guard_witness :
    ∃ res row,
      detect_anomalies dfA 2 3 "zscore" (3 / 2) = .ok res ∧
      (res.filter (meterIs "A"))[1]? = some row ∧
      row.rolling_var = some 0 ∧ row.zscore_num = none ∧ row.is_anomaly = false := by
  have hsp : sortedPartition dfA "A" = dfA.rows := by
    unfold sortedPartition
    have hg : groupOf dfA.rows "A" = dfA.rows := by decide
    rw [hg]
    exact List.mergeSort_of_sorted (by decide)
  exact C6_zero_variance_guard dfA 2 3 "zscore" (3 / 2) "A" 1 [10, 10]
    (by decide) (by decide) (by rw [hsp]; decide) (by norm_num [popVar, listMean])

/-- C7: partition isolation — a sensor's enriched output rows depend only on
that sensor's own input rows: two frames agreeing on sensor K's rows produce
identical enriched rows for K, whether or not other sensors' rows are present. -/
theorem C7_partition_isolation
    (df₁ df₂ : InputDF) (w : Nat) (t : ℚ) (m : String) (kq : ℚ) (K : String)
    (hs₁ : missingColumns df₁.columns = []) (hs₂ : missingColumns df₂.columns = [])
    (hmv : normalizeMethod m = "zscore" ∨ normalizeMethod m = "iqr")
    (hsame : groupOf df₁.rows K = groupOf df₂.rows K) :
    ∃ res₁ res₂,
      detect_anomalies df₁ w t m kq = .ok res₁ ∧
      detect_anomalies df₂ w t m kq = .ok res₂ ∧
      res₁.filter (meterIs K) = res₂.filter (meterIs K) := by
  have hsp : sortedPartition df₁ K = sortedPartition df₂ K := by
    unfold sortedPartition
    rw [hsame]
  rcases hmv with hm | hm
  · exact ⟨_, _, detect_eq_zscore df₁ w t m kq hs₁ hm,
      detect_eq_zscore df₂ w t m kq hs₂ hm,
      by rw [zscoreFilter_eq df₁ w t K, zscoreFilter_eq df₂ w t K, hsp]⟩
  · exact ⟨_, _, detect_eq_iqr df₁ w t m kq hs₁ hm,
      detect_eq_iqr df₂ w t m kq hs₂ hm,
      by rw [iqrFilter_eq df₁ w kq K, iqrFilter_eq df₂ w kq K, hsp]⟩

theorem C7_partition_isolation_witness :
    ∃ res₁ res₂,
      detect_anomalies dfAB 2 3 "zscore" (3 / 2) = .ok res₁ ∧
      detect_anomalies dfA 2 3 "zscore" (3 / 2) = .ok res₂ ∧
      res₁.filter (meterIs "A") = res₂.filter (meterIs "A") :=
  C7_partition_isolation dfAB dfA 2 3 "zscore" (3 / 2) "A" (by decide) (by decide)
    (Or.inl (by decide)) (by decide)

/-- C8: rows are partitioned by sensor and each partition is stably sorted by
timestamp ascending: sensor K's output rows are exactly the enrichment of the
stable sort of K's input rows (the combined output never reorders a sensor's
rows differently from this per-partition sort), that sequence is sorted by
timestamp and is a permutation of K's input rows, and rows sharing a
timestamp keep their original relative input order. -/
theorem C8_stable_partition_order
    (df : InputDF) (w : Nat) (t : ℚ) (m : String) (kq : ℚ) (K : String) (τ : Option Int)
    (hs : missingColumns df.columns = [])
    (hmv : normalizeMethod m = "zscore" ∨ normalizeMethod m = "iqr") :
    ∃ res,
      detect_anomalies df w t m kq = .ok res ∧
      (res.filter (meterIs K)).map toReading = sortedPartition df K ∧
      List.Pairwise (fun a b => tsRowLe a b = true) (sortedPartition df K) ∧
      sortedPartition df K ~ groupOf df.rows K ∧
      (res.filter fun r => decide (r.meter_code = K ∧ r.ts = τ)).map toReading =
        df.rows.filter fun r => decide (r.meter_code = K ∧ r.ts = τ) := by
  have hsorted : List.Pairwise (fun a b => tsRowLe a b = true) (sortedPartition df K) :=
    List.sorted_mergeSort tsRowLe_trans (fun a b => tsRowLe_total a b) _
  have hperm : sortedPartition df K ~ groupOf df.rows K :=
    List.mergeSort_perm _ _
  have hB : ∀ X : List ResultRow,
      (X.filter fun r => decide (r.ts = τ)).map toReading =
        (X.map toReading).filter fun r => decide (r.ts = τ) := by
    intro X
    rw [List.filter_map]
    exact (congrArg (List.map toReading) (List.filter_congr fun a _ => rfl)).symm
  have hC : (sortedPartition df K).filter (fun r => decide (r.ts = τ)) =
      (groupOf df.rows K).filter (fun r => decide (r.ts = τ)) :=
    sortedPartition_tie_filter df.rows K τ
  have hD : (groupOf df.rows K).filter (fun r => decide (r.ts = τ)) =
      df.rows.filter fun r => decide (r.meter_code = K ∧ r.ts = τ) := by
    unfold groupOf
    rw [List.filter_filter]
    refine List.filter_congr ?_
    intro r _
    simp [Bool.decide_and, Bool.and_comm]
  rcases hmv with hm | hm
  · have hproj : ((zscorePipeline (stableSortRows df.rows) w t "zscore").filter
        (meterIs K)).map toReading = sortedPartition df K := by
      rw [zscoreFilter_eq df w t K]
      exact enrichWith_map_toReading _ _ fun i _ => rfl
    refine ⟨_, detect_eq_zscore df w t m kq hs hm, hproj, hsorted, hperm, ?_⟩
    have hA : (zscorePipeline (stableSortRows df.rows) w t "zscore").filter
        (fun r => decide (r.meter_code = K ∧ r.ts = τ)) =
        ((zscorePipeline (stableSortRows df.rows) w t "zscore").filter (meterIs K)).filter
          (fun r => decide (r.ts = τ)) := by
      rw [List.filter_filter]
      refine List.filter_congr ?_
      intro r _
      simp [meterIs, Bool.decide_and, Bool.and_comm]
    rw [hA, hB, hproj, hC, hD]
  · have hproj : ((iqrPipeline (stableSortRows df.rows) w kq "iqr").filter
        (meterIs K)).map toReading = sortedPartition df K := by
      rw [iqrFilter_eq df w kq K]
      exact enrichWith_map_toReading _ _ fun i _ => rfl
    refine ⟨_, detect_eq_iqr df w t m kq hs hm, hproj, hsorted, hperm, ?_⟩
    have hA : (iqrPipeline (stableSortRows df.rows) w kq "iqr").filter
        (fun r => decide (r.meter_code = K ∧ r.ts = τ)) =
        ((iqrPipeline (stableSortRows df.rows) w kq "iqr").filter (meterIs K)).filter
          (fun r => decide (r.ts = τ)) := by
      rw [List.filter_filter]
      refine List.filter_congr ?_
      intro r _
      simp [meterIs, Bool.decide_and, Bool.and_comm]
    rw [hA, hB, hproj, hC, hD]

theorem C8_stable_partition_order_witness :
    ∃ res,
      detect_anomalies dfAB 2 3 "zscore" (3 / 2) = .ok res ∧
      (res.filter (meterIs "A")).map toReading = sortedPartition dfAB "A" ∧
      List.Pairwise (fun a b => tsRowLe a b = true) (sortedPartition dfAB "A") ∧
      sortedPartition dfAB "A" ~ groupOf dfAB.rows "A" ∧
      (res.filter fun r => decide (r.meter_code = "A" ∧ r.ts = some 1)).map toReading =
        dfAB.rows.filter fun r => decide (r.meter_code = "A" ∧ r.ts = some 1) :=
  C8_stable_partition_order dfAB 2 3 "zscore" (3 / 2) "A" (some 1) (by decide)
    (Or.inl (by decide))

/-- C9: the method string is normalized by lower-casing and stripping
surrounding whitespace before dispatch: the invalid-method error is raised
exactly when the normalized string is neither "zscore" nor "iqr" (and the
error carries the normalized, not the original, string), and on success every
output row's method tag records the normalized string. -/
theorem C9_method_normalization (df : InputDF) (w : Nat) (t : ℚ) (m : String) (kq : ℚ)
    (hs : missingColumns df.columns = []) :
    ((normalizeMethod m ≠ "zscore" ∧ normalizeMethod m ≠ "iqr") ↔
      detect_anomalies df w t m kq = .error (.invalidMethod (normalizeMethod m))) ∧
    (∀ res, detect_anomalies df w t m kq = .ok res →
      ∀ row ∈ res, row.detector = normalizeMethod m) := by
  constructor
  · constructor
    · rintro ⟨h1, h2⟩
      exact detect_invalid_method df w t m kq hs h1 h2
    · intro herr
      by_cases h1 : normalizeMethod m = "zscore"
      · rw [detect_eq_zscore df w t m kq hs h1] at herr
        exact absurd herr (by simp)
      · by_cases h2 : normalizeMethod m = "iqr"
        · rw [detect_eq_iqr df w t m kq hs h2] at herr
          exact absurd herr (by simp)
        · exact ⟨h1, h2⟩
  · intro res hres row hrow
    by_cases h1 : normalizeMethod m = "zscore"
    · rw [detect_eq_zscore df w t m kq hs h1] at hres
      injection hres with hres'
      subst hres'
      unfold zscorePipeline at hrow
      obtain ⟨k', i', _, rfl⟩ := mem_pipelineWith hrow
      exact h1.symm
    · by_cases h2 : normalizeMethod m = "iqr"
      · rw [detect_eq_iqr df w t m kq hs h2] at hres
        injection hres with hres'
        subst hres'
        unfold iqrPipeline at hrow
        obtain ⟨k', i', _, rfl⟩ := mem_pipelineWith hrow
        exact h2.symm
      · rw [detect_invalid_method df w t m kq hs h1 h2] at hres
        exact absurd hres (by simp)

theorem C9_method_normalization_witness :
    (((normalizeMethod " Iqr " ≠ "zscore" ∧ normalizeMethod " Iqr " ≠ "iqr") ↔
      detect_anomalies dfA 2 3 " Iqr " (3 / 2) =
        .error (.invalidMethod (normalizeMethod " Iqr "))) ∧
    (∀ res, detect_anomalies dfA 2 3 " Iqr " (3 / 2) = .ok res →
      ∀ row ∈ res, row.detector = normalizeMethod " Iqr ")) ∧
    (((normalizeMethod "ZSCORE" ≠ "zscore" ∧ normalizeMethod "ZSCORE" ≠ "iqr") ↔
      detect_anomalies dfA 2 3 "ZSCORE" (3 / 2) =
        .error (.invalidMethod (normalizeMethod "ZSCORE"))) ∧
    (∀ res, detect_anomalies dfA 2 3 "ZSCORE" (3 / 2) = .ok res →
      ∀ row ∈ res, row.detector = normalizeMethod "ZSCORE")) :=
  ⟨C9_method_normalization dfA 2 3 " Iqr " (3 / 2) (by decide),
   C9_method_normalization dfA 2 3 "ZSCORE" (3 / 2) (by decide)⟩

/-- C10: under "zscore", a value that failed numeric coercion suppresses
detection beyond its own row: every position of that sensor whose trailing
window of size `window` contains the undefined value has undefined rolling
mean, variance and z-score numerator, and is therefore not flagged. -/
theorem C10_nan_window_suppression
    (df : InputDF) (w : Nat) (t : ℚ) (m : String) (kq : ℚ) (K : String) (j j0 : Nat)
    (hs : missingColumns df.columns = [])
    (hm : normalizeMethod m = "zscore")
    (hj : j < (sortedPartition df K).length)
    (hj0 : j0 ≤ j) (hjw : j + 1 ≤ w + j0)
    (hnan : (groupVals (sortedPartition df K))[j0]? = some none) :
    ∃ res row,
      detect_anomalies df w t m kq = .ok res ∧
      (res.filter (meterIs K))[j]? = some row ∧
      row.rolling_mean = none ∧ row.rolling_var = none ∧ row.zscore_num = none ∧
      row.is_anomaly = false := by
  have hwin : rwindow (groupVals (sortedPartition df K)) w j = none :=
    rwindow_none_of_none_inside hj0 hjw hnan
  have hstd : zStdPos (sortedPartition df K) w j = false := by
    simp [zStdPos, zVar, hwin]
  refine ⟨_, zRowAt (sortedPartition df K) w t "zscore" j,
    detect_eq_zscore df w t m kq hs hm, ?_, ?_, ?_, ?_, ?_⟩
  · rw [zscoreFilter_eq df w t K]
    exact enrichWith_getElem? _ _ j hj
  · simp [zRowAt, zMean, hwin]
  · simp [zRowAt, zVar, hwin]
  · simp [zRowAt, zNum, hstd]
  · simp [zRowAt, zAnom, hstd]

theorem C10_nan_window_suppression_witness :
    ∃ res row,
      detect_anomalies dfNan 2 3 "zscore" (3 / 2) = .ok res ∧
      (res.filter (meterIs "A"))[2]? = some row ∧
      row.rolling_mean = none ∧ row.rolling_var = none ∧ row.zscore_num = none ∧
      row.is_anomaly = false := by
  have hsp : sortedPartition dfNan "A" = dfNan.rows := by
    unfold sortedPartition
    have hg : groupOf dfNan.rows "A" = dfNan.rows := by decide
    rw [hg]
    exact List.mergeSort_of_sorted (by decide)
  exact C10_nan_window_suppression dfNan 2 3 "zscore" (3 / 2) "A" 2 1
    (by decide) (by decide) (by rw [hsp]; decide) (by decide) (by decide)
    (by rw [hsp]; decide)

end Agua
